import Mathlib

/-!
Verification development for the CortexKey acquisition-and-signing pipeline
(`CortexKey-Python/brainwave_auth.py`).

Bytes are modelled as natural numbers below 256.  The external cryptographic
primitives (`HKDF` and `AESGCM` from the `cryptography` package) are modelled
as ideal functionalities: key derivation is a deterministic injective function
of the passphrase and salt, and authenticated encryption is an injective
encoding of the plaintext under the key and nonce whose decryption succeeds
exactly on honestly produced ciphertexts.  Everything else (wire encoding,
payload layout, window buffering, validation, line parsing) is translated
directly from the Python source.
-/

namespace CortexKey

/-- A list of naturals is a valid byte string when every entry is below 256. -/
def ValidBytes (bs : List Nat) : Prop := ∀ b ∈ bs, b < 256

instance : DecidablePred ValidBytes := fun bs =>
  inferInstanceAs (Decidable (∀ b ∈ bs, b < 256))

/-! ### base64url wire encoding

Models `base64.urlsafe_b64encode` / `base64.urlsafe_b64decode` on byte
strings.  Decoding is strict: any character outside the urlsafe alphabet
(or misplaced padding) fails, which corresponds to the decode exceptions
that `verify_signature` catches. -/

/-- The urlsafe base64 alphabet, mapping a sextet to its character. -/
def sextetChar (i : Nat) : Char :=
  if i < 26 then Char.ofNat (65 + i)
  else if i < 52 then Char.ofNat (97 + (i - 26))
  else if i < 62 then Char.ofNat (48 + (i - 52))
  else if i = 62 then '-'
  else '_'

/-- Inverse of the urlsafe alphabet; `none` for characters outside it. -/
def sextetOfChar (c : Char) : Option Nat :=
  if 'A' ≤ c ∧ c ≤ 'Z' then some (c.toNat - 65)
  else if 'a' ≤ c ∧ c ≤ 'z' then some (c.toNat - 97 + 26)
  else if '0' ≤ c ∧ c ≤ '9' then some (c.toNat - 48 + 52)
  else if c = '-' then some 62
  else if c = '_' then some 63
  else none

/-- `base64.urlsafe_b64encode` on a byte string. -/
def b64Encode : List Nat → List Char
  | [] => []
  | [b1] =>
      [sextetChar (b1 / 4), sextetChar (b1 % 4 * 16), '=', '=']
  | [b1, b2] =>
      [sextetChar (b1 / 4), sextetChar (b1 % 4 * 16 + b2 / 16),
       sextetChar (b2 % 16 * 4), '=']
  | b1 :: b2 :: b3 :: rest =>
      sextetChar (b1 / 4) :: sextetChar (b1 % 4 * 16 + b2 / 16) ::
      sextetChar (b2 % 16 * 4 + b3 / 64) :: sextetChar (b3 % 64) ::
      b64Encode rest

/-- `base64.urlsafe_b64decode` on a string, strict on the alphabet. -/
def b64Decode : List Char → Option (List Nat)
  | [] => some []
  | c1 :: c2 :: c3 :: c4 :: rest =>
      match sextetOfChar c1, sextetOfChar c2 with
      | some i1, some i2 =>
          if c3 = '=' then
            if c4 = '=' ∧ rest = [] then some [i1 * 4 + i2 / 16] else none
          else
            match sextetOfChar c3 with
            | some i3 =>
                if c4 = '=' then
                  if rest = [] then
                    some [i1 * 4 + i2 / 16, i2 % 16 * 16 + i3 / 4]
                  else none
                else
                  match sextetOfChar c4, b64Decode rest with
                  | some i4, some bs =>
                      some ((i1 * 4 + i2 / 16) :: (i2 % 16 * 16 + i3 / 4) ::
                            (i3 % 4 * 64 + i4) :: bs)
                  | _, _ => none
            | none => none
      | _, _ => none
  | _ => none

theorem sextetOfChar_sextetChar : ∀ i < 64, sextetOfChar (sextetChar i) = some i := by
  decide

theorem sextetChar_ne_pad : ∀ i < 64, sextetChar i ≠ '=' := by
  decide

/-- Decoding is a left inverse of encoding on valid byte strings. -/
theorem b64_roundtrip : ∀ bs : List Nat, ValidBytes bs →
    b64Decode (b64Encode bs) = some bs := by
  intro bs h
  induction bs using b64Encode.induct with
  | case1 => rfl
  | case2 b1 =>
      have hb1 : b1 < 256 := h b1 (by simp)
      have e1 := sextetOfChar_sextetChar (b1 / 4) (by omega)
      have e2 := sextetOfChar_sextetChar (b1 % 4 * 16) (by omega)
      simp only [b64Encode, b64Decode, e1, e2, if_pos rfl, and_self, if_true,
        Option.some.injEq, List.cons.injEq, and_true]
      omega
  | case3 b1 b2 =>
      have hb1 : b1 < 256 := h b1 (by simp)
      have hb2 : b2 < 256 := h b2 (by simp)
      have e1 := sextetOfChar_sextetChar (b1 / 4) (by omega)
      have e2 := sextetOfChar_sextetChar (b1 % 4 * 16 + b2 / 16) (by omega)
      have e3 := sextetOfChar_sextetChar (b2 % 16 * 4) (by omega)
      have n3 := sextetChar_ne_pad (b2 % 16 * 4) (by omega)
      simp only [b64Encode, b64Decode, e1, e2, e3, if_neg n3, if_pos rfl,
        if_true, Option.some.injEq, List.cons.injEq, and_true]
      omega
  | case4 b1 b2 b3 rest ih =>
      have hb1 : b1 < 256 := h b1 (by simp)
      have hb2 : b2 < 256 := h b2 (by simp)
      have hb3 : b3 < 256 := h b3 (by simp)
      have hrest : ValidBytes rest := fun b hb => h b (by simp [hb])
      have e1 := sextetOfChar_sextetChar (b1 / 4) (by omega)
      have e2 := sextetOfChar_sextetChar (b1 % 4 * 16 + b2 / 16) (by omega)
      have e3 := sextetOfChar_sextetChar (b2 % 16 * 4 + b3 / 64) (by omega)
      have e4 := sextetOfChar_sextetChar (b3 % 64) (by omega)
      have n3 := sextetChar_ne_pad (b2 % 16 * 4 + b3 / 64) (by omega)
      have n4 := sextetChar_ne_pad (b3 % 64) (by omega)
      simp only [b64Encode, b64Decode, e1, e2, e3, e4, if_neg n3, if_neg n4,
        ih hrest, Option.some.injEq, List.cons.injEq, and_true]
      refine ⟨by omega, by omega, by omega⟩

/-! ### Idealised cryptographic primitives

`BrainwaveProcessor._derive_key` calls HKDF-SHA256 and
`encrypt_signature` / `verify_signature` call AES-GCM; both primitives live
in the external `cryptography` package.  They are modelled as ideal
functionalities: `hkdfDerive` is a deterministic injective function of the
passphrase and salt, and `gcmEncrypt` tags the plaintext with the key and
nonce so that `gcmDecrypt` succeeds exactly on ciphertexts honestly produced
under the same key and nonce (the AEAD integrity guarantee). -/

/-- Ideal model of `HKDF(SHA256, salt, info).derive(passphrase)`:
a key determined by, and injective in, the passphrase and the salt. -/
def hkdfDerive (pass salt : List Nat) : List Nat :=
  pass.length :: (pass ++ salt)

/-- The authentication header of an ideal AEAD ciphertext: it binds the key
and the nonce. -/
def gcmHeader (key nonce : List Nat) : List Nat :=
  (key.length :: key) ++ (nonce.length :: nonce)

/-- Ideal model of `AESGCM(key).encrypt(nonce, pt, None)`. -/
def gcmEncrypt (key nonce pt : List Nat) : List Nat :=
  gcmHeader key nonce ++ pt

/-- Ideal model of `AESGCM(key).decrypt(nonce, ct, None)`: succeeds exactly
when `ct` was produced by `gcmEncrypt` under the same key and nonce,
returning the original plaintext; any mismatch is an `InvalidTag` failure,
modelled as `none`. -/
def gcmDecrypt (key nonce ct : List Nat) : Option (List Nat) :=
  if ct.take (gcmHeader key nonce).length = gcmHeader key nonce then
    some (ct.drop (gcmHeader key nonce).length)
  else none

theorem gcm_roundtrip (key nonce pt : List Nat) :
    gcmDecrypt key nonce (gcmEncrypt key nonce pt) = some pt := by
  unfold gcmDecrypt gcmEncrypt
  simp [List.take_left' rfl, List.drop_left' rfl]

/-! ### `BrainwaveProcessor`: key material, sealing and verification

Randomness (`os.urandom`) is modelled by explicit entropy oracles
`Nat → Nat`: construction consumes 16 bytes for the salt, and every
`encrypt_signature` call consumes 12 bytes for its nonce. -/

/-- The key material of a `BrainwaveProcessor` (`__init__`, lines 148-158):
the passphrase is kept, and `self.key, self.salt = self._derive_key(passphrase)`
generates a random 16-byte salt once and derives the key from it. -/
structure Processor where
  passphrase : List Nat
  key : List Nat
  salt : List Nat

/-- `BrainwaveProcessor.__init__`: draw a 16-byte salt from the construction
entropy `ent` and derive the key (the crypto part of construction). -/
def mkProcessor (pass : List Nat) (ent : Nat → Nat) : Processor :=
  let salt := (List.range 16).map ent
  { passphrase := pass, key := hkdfDerive pass salt, salt := salt }

/-- The fresh 12-byte nonce drawn by one `encrypt_signature` call from its
entropy oracle (`nonce = os.urandom(12)`). -/
def nonceOf (nent : Nat → Nat) : List Nat :=
  (List.range 12).map nent

/-- The AES-GCM ciphertext produced by one `encrypt_signature` call. -/
def ciphertextOf (P : Processor) (featBytes : List Nat) (nent : Nat → Nat) : List Nat :=
  gcmEncrypt P.key (nonceOf nent) featBytes

/-- The byte payload `self.salt + nonce + ciphertext` built by
`encrypt_signature` (line 249). -/
def encryptPayload (P : Processor) (featBytes : List Nat) (nent : Nat → Nat) : List Nat :=
  P.salt ++ nonceOf nent ++ ciphertextOf P featBytes nent

/-- `BrainwaveProcessor.encrypt_signature` (lines 244-250): seal the feature
bytes and base64url-encode the payload. -/
def encryptSignature (P : Processor) (featBytes : List Nat) (nent : Nat → Nat) : List Char :=
  b64Encode (encryptPayload P featBytes nent)

/-- The body of `BrainwaveProcessor.verify_signature` after base64 decoding
(lines 256-263): split the payload at offsets 16 and 28, re-derive the key
from the live passphrase and the extracted salt, decrypt, and compare
byte-for-byte with the expected feature bytes. -/
def verifyPayload (pass payload featBytes : List Nat) : Bool :=
  match gcmDecrypt (hkdfDerive pass (payload.take 16))
      ((payload.drop 16).take 12) (payload.drop 28) with
  | some d => d == featBytes
  | none => false

/-- `BrainwaveProcessor.verify_signature` (lines 252-265): decode and check;
every failure (decode error, AEAD failure, byte mismatch) yields `false`. -/
def verifySignature (P : Processor) (sig : List Char) (featBytes : List Nat) : Bool :=
  match b64Decode sig with
  | some payload => verifyPayload P.passphrase payload featBytes
  | none => false

theorem set_append_right (l₁ l₂ : List α) (n : Nat) (a : α) :
    (l₁ ++ l₂).set (l₁.length + n) a = l₁ ++ l₂.set n a := by
  induction l₁ with
  | nil => simp
  | cons x xs ih =>
      simp only [List.length_cons, List.cons_append]
      rw [show xs.length + 1 + n = (xs.length + n) + 1 from by omega]
      simp [List.set, ih]

/-- Splitting the sealed payload at the fixed offsets 16 and 28 recovers the
salt, the nonce and the ciphertext. -/
theorem payload_split (salt nonce ct : List Nat)
    (hs : salt.length = 16) (hn : nonce.length = 12) :
    (salt ++ nonce ++ ct).take 16 = salt ∧
    ((salt ++ nonce ++ ct).drop 16).take 12 = nonce ∧
    (salt ++ nonce ++ ct).drop 28 = ct := by
  rw [List.append_assoc]
  refine ⟨List.take_left' hs, ?_, ?_⟩
  · rw [List.drop_left' hs, List.take_left' hn]
  · rw [show (28 : Nat) = 16 + 12 from rfl, ← List.drop_drop,
      List.drop_left' hs, List.drop_left' hn]

theorem salt_mkProcessor (pass : List Nat) (ent : Nat → Nat) :
    (mkProcessor pass ent).salt = (List.range 16).map ent := rfl

theorem length_salt (pass : List Nat) (ent : Nat → Nat) :
    (mkProcessor pass ent).salt.length = 16 := by simp [mkProcessor]

theorem length_nonceOf (nent : Nat → Nat) : (nonceOf nent).length = 12 := by
  simp [nonceOf]

theorem key_mkProcessor (pass : List Nat) (ent : Nat → Nat) :
    hkdfDerive pass (mkProcessor pass ent).salt = (mkProcessor pass ent).key := rfl

theorem gcmHeader_ne_nil (key nonce : List Nat) : gcmHeader key nonce ≠ [] := by
  simp [gcmHeader]

/-- Opening an honestly sealed payload with the same passphrase and the same
feature bytes succeeds. -/
theorem verifyPayload_seal (pass salt key nonce fb : List Nat)
    (hs : salt.length = 16) (hn : nonce.length = 12)
    (hkey : hkdfDerive pass salt = key) :
    verifyPayload pass (salt ++ nonce ++ gcmEncrypt key nonce fb) fb = true := by
  obtain ⟨h1, h2, h3⟩ := payload_split salt nonce (gcmEncrypt key nonce fb) hs hn
  unfold verifyPayload
  rw [h1, h2, h3, hkey, gcm_roundtrip]
  simp

/-- Flipping any single byte of the ciphertext portion of the payload makes
verification fail: in the authentication header decryption fails, and in the
plaintext portion the decrypted bytes no longer match. -/
theorem verifyPayload_flip (pass salt key nonce fb : List Nat)
    (hs : salt.length = 16) (hn : nonce.length = 12)
    (hkey : hkdfDerive pass salt = key)
    (j v : Nat) (hj : j < (gcmEncrypt key nonce fb).length)
    (hv : v ≠ (gcmEncrypt key nonce fb)[j]) :
    verifyPayload pass
      ((salt ++ nonce ++ gcmEncrypt key nonce fb).set (28 + j) v) fb = false := by
  set ct := gcmEncrypt key nonce fb with hct
  set hdr := gcmHeader key nonce with hhdr
  have hcteq : ct = hdr ++ fb := rfl
  have hctlen : ct.length = hdr.length + fb.length := by rw [hcteq]; simp
  have hset : (salt ++ nonce ++ ct).set (28 + j) v = salt ++ nonce ++ ct.set j v := by
    have hlen : (salt ++ nonce).length = 28 := by simp [hs, hn]
    calc (salt ++ nonce ++ ct).set (28 + j) v
        = ((salt ++ nonce) ++ ct).set ((salt ++ nonce).length + j) v := by rw [hlen]
      _ = (salt ++ nonce) ++ ct.set j v := set_append_right _ _ _ _
  obtain ⟨h1, h2, h3⟩ := payload_split salt nonce (ct.set j v) hs hn
  unfold verifyPayload
  rw [hset, h1, h2, h3, hkey]
  by_cases hcase : j < hdr.length
  · have hne : (ct.set j v).take hdr.length ≠ hdr := by
      intro heq
      have hjlt : j < ((ct.set j v).take hdr.length).length := by
        simp only [List.length_take, List.length_set]
        omega
      have hcontr := List.getElem_of_eq heq hjlt
      rw [List.getElem_take] at hcontr
      rw [List.getElem_set_self (by simp; omega)] at hcontr
      have hr : ct[j] = hdr[j] := List.getElem_append_left hcase
      exact hv (hcontr.trans hr.symm)
    simp only [gcmDecrypt, ← hhdr]
    rw [if_neg hne]
  · push_neg at hcase
    have hsetct : ct.set j v = gcmEncrypt key nonce (fb.set (j - hdr.length) v) := by
      conv_lhs => rw [hcteq, show j = hdr.length + (j - hdr.length) from by omega]
      exact set_append_right _ _ _ _
    rw [hsetct, gcm_roundtrip]
    have hne : fb.set (j - hdr.length) v ≠ fb := by
      intro heq
      have hjf : j - hdr.length < fb.length := by omega
      have hlt : j - hdr.length < (fb.set (j - hdr.length) v).length := by
        simpa using hjf
      have hcontr := List.getElem_of_eq heq hlt
      rw [List.getElem_set_self] at hcontr
      have hr : ct[j] = fb[j - hdr.length] := List.getElem_append_right hcase
      exact hv (hcontr.trans hr.symm)
    simp [beq_eq_false_iff_ne, hne]

/-- Truncating the payload makes verification fail: either the
authentication header is damaged (decryption failure) or the decrypted bytes
are a proper prefix of the expected feature bytes. -/
theorem verifyPayload_truncate (pass salt key nonce fb : List Nat)
    (hs : salt.length = 16) (hn : nonce.length = 12)
    (hkey : hkdfDerive pass salt = key)
    (m : Nat) (hm : m < (salt ++ nonce ++ gcmEncrypt key nonce fb).length) :
    verifyPayload pass
      ((salt ++ nonce ++ gcmEncrypt key nonce fb).take m) fb = false := by
  set ct := gcmEncrypt key nonce fb with hct
  set hdr := gcmHeader key nonce with hhdr
  have hcteq : ct = hdr ++ fb := rfl
  have hctlen : ct.length = hdr.length + fb.length := by rw [hcteq]; simp
  have hplen : (salt ++ nonce ++ ct).length = 28 + ct.length := by
    simp [hs, hn]; omega
  by_cases hcase : m < 28
  · have hctnil : ((salt ++ nonce ++ ct).take m).drop 28 = [] := by
      apply List.drop_eq_nil_of_le
      simp only [List.length_take]
      omega
    have hnil : ∀ k n : List Nat, ([] : List Nat) ≠ gcmHeader k n :=
      fun k n => Ne.symm (gcmHeader_ne_nil k n)
    unfold verifyPayload
    rw [hctnil]
    simp only [gcmDecrypt, List.take_nil]
    rw [if_neg (hnil _ _)]
  · push_neg at hcase
    obtain ⟨h1, h2, h3⟩ := payload_split salt nonce ct hs hn
    have hs1 : ((salt ++ nonce ++ ct).take m).take 16 = salt := by
      rw [List.take_take, Nat.min_eq_left (by omega), h1]
    have hs2 : (((salt ++ nonce ++ ct).take m).drop 16).take 12 = nonce := by
      rw [List.drop_take, List.take_take, Nat.min_eq_left (by omega), h2]
    have hs3 : ((salt ++ nonce ++ ct).take m).drop 28 = ct.take (m - 28) := by
      rw [List.drop_take, h3]
    unfold verifyPayload
    rw [hs1, hs2, hs3, hkey]
    have htlen : m - 28 < ct.length := by omega
    by_cases hsub : m - 28 < hdr.length
    · have hne : (ct.take (m - 28)).take hdr.length ≠ hdr := by
        intro heq
        have := congrArg List.length heq
        simp only [List.length_take] at this
        omega
      simp only [gcmDecrypt, ← hhdr]
      rw [if_neg hne]
    · push_neg at hsub
      have hhd : (ct.take (m - 28)).take hdr.length = hdr := by
        rw [List.take_take, Nat.min_eq_left hsub, hcteq, List.take_left' rfl]
      have hdd : (ct.take (m - 28)).drop hdr.length = fb.take (m - 28 - hdr.length) := by
        rw [List.drop_take, hcteq, List.drop_left' rfl]
      have hne : fb.take (m - 28 - hdr.length) ≠ fb := by
        intro heq
        have := congrArg List.length heq
        simp only [List.length_take] at this
        omega
      simp only [gcmDecrypt, ← hhdr]
      rw [if_pos hhd, hdd]
      simp [beq_eq_false_iff_ne, hne]

theorem ValidBytes.append {l₁ l₂ : List Nat}
    (h₁ : ValidBytes l₁) (h₂ : ValidBytes l₂) : ValidBytes (l₁ ++ l₂) := by
  intro b hb
  rcases List.mem_append.1 hb with h | h
  exacts [h₁ b h, h₂ b h]

theorem ValidBytes.cons {x : Nat} {l : List Nat}
    (hx : x < 256) (h : ValidBytes l) : ValidBytes (x :: l) := by
  intro b hb
  rcases List.mem_cons.1 hb with rfl | h'
  exacts [hx, h b h']

theorem validBytes_rangeMap (n : Nat) (f : Nat → Nat) (hf : ∀ i, f i < 256) :
    ValidBytes ((List.range n).map f) := by
  intro b hb
  simp only [List.mem_map, List.mem_range] at hb
  obtain ⟨i, _, rfl⟩ := hb
  exact hf i

/-- The sealed payload consists of bytes whenever the passphrase is a short
byte string, the entropy oracles produce bytes and the feature bytes are
bytes. -/
theorem validBytes_encryptPayload (pass fb : List Nat) (ent nent : Nat → Nat)
    (hpass : ValidBytes pass) (hplen : pass.length ≤ 238)
    (hent : ∀ i, ent i < 256) (hnent : ∀ i, nent i < 256)
    (hfb : ValidBytes fb) :
    ValidBytes (encryptPayload (mkProcessor pass ent) fb nent) := by
  have hsalt : ValidBytes ((List.range 16).map ent) := validBytes_rangeMap 16 ent hent
  have hnonce : ValidBytes ((List.range 12).map nent) := validBytes_rangeMap 12 nent hnent
  have hkey : ValidBytes (hkdfDerive pass ((List.range 16).map ent)) :=
    ValidBytes.cons (by omega) (hpass.append hsalt)
  have hkeylen : (hkdfDerive pass ((List.range 16).map ent)).length < 256 := by
    simp [hkdfDerive]
    omega
  exact hsalt.append (hnonce.append
    (((ValidBytes.cons hkeylen hkey).append
      (ValidBytes.cons (by rw [length_nonceOf]; omega) hnonce)).append hfb))

/-- C1: for every feature vector, sealing it with `encrypt_signature` and
then opening the resulting signature string with `verify_signature` under
the same passphrase and the same feature bytes returns `true`; flipping any
single byte of the ciphertext portion of the payload, or truncating the
payload, makes `verify_signature` return `false`. -/
theorem claim_C1 (pass fb : List Nat) (ent nent : Nat → Nat)
    (hpass : ValidBytes pass) (hplen : pass.length ≤ 238)
    (hent : ∀ i, ent i < 256) (hnent : ∀ i, nent i < 256)
    (hfb : ValidBytes fb) :
    verifySignature (mkProcessor pass ent)
        (encryptSignature (mkProcessor pass ent) fb nent) fb = true ∧
    (∀ j, ∀ hj : j < (ciphertextOf (mkProcessor pass ent) fb nent).length,
      ∀ v, v < 256 → v ≠ (ciphertextOf (mkProcessor pass ent) fb nent)[j] →
      verifySignature (mkProcessor pass ent)
        (b64Encode ((encryptPayload (mkProcessor pass ent) fb nent).set (28 + j) v))
        fb = false) ∧
    (∀ m, m < (encryptPayload (mkProcessor pass ent) fb nent).length →
      verifySignature (mkProcessor pass ent)
        (b64Encode ((encryptPayload (mkProcessor pass ent) fb nent).take m))
        fb = false) := by
  have hval := validBytes_encryptPayload pass fb ent nent hpass hplen hent hnent hfb
  refine ⟨?_, ?_, ?_⟩
  · unfold verifySignature encryptSignature
    rw [b64_roundtrip _ hval]
    exact verifyPayload_seal pass (mkProcessor pass ent).salt (mkProcessor pass ent).key
      (nonceOf nent) fb (length_salt pass ent) (length_nonceOf nent)
      (key_mkProcessor pass ent)
  · intro j hj v hv256 hvne
    have hvalset : ValidBytes ((encryptPayload (mkProcessor pass ent) fb nent).set (28 + j) v) := by
      intro b hb
      rcases List.mem_or_eq_of_mem_set hb with h | rfl
      exacts [hval b h, hv256]
    unfold verifySignature
    rw [b64_roundtrip _ hvalset]
    exact verifyPayload_flip pass (mkProcessor pass ent).salt (mkProcessor pass ent).key
      (nonceOf nent) fb (length_salt pass ent) (length_nonceOf nent)
      (key_mkProcessor pass ent) j v hj hvne
  · intro m hm
    have hvaltake : ValidBytes ((encryptPayload (mkProcessor pass ent) fb nent).take m) :=
      fun b hb => hval b (List.mem_of_mem_take hb)
    unfold verifySignature
    rw [b64_roundtrip _ hvaltake]
    exact verifyPayload_truncate pass (mkProcessor pass ent).salt (mkProcessor pass ent).key
      (nonceOf nent) fb (length_salt pass ent) (length_nonceOf nent)
      (key_mkProcessor pass ent) m hm

/-- Witness for C1 at a concrete passphrase, entropy and feature vector. -/
theorem claim_C1_witness :
    verifySignature (mkProcessor [112, 119] (fun i => i % 256))
        (encryptSignature (mkProcessor [112, 119] (fun i => i % 256)) [1, 2, 3]
          (fun i => (100 + i) % 256)) [1, 2, 3] = true ∧
    verifySignature (mkProcessor [112, 119] (fun i => i % 256))
        (b64Encode ((encryptPayload (mkProcessor [112, 119] (fun i => i % 256)) [1, 2, 3]
          (fun i => (100 + i) % 256)).set (28 + 0) 5)) [1, 2, 3] = false ∧
    verifySignature (mkProcessor [112, 119] (fun i => i % 256))
        (b64Encode ((encryptPayload (mkProcessor [112, 119] (fun i => i % 256)) [1, 2, 3]
          (fun i => (100 + i) % 256)).take 10)) [1, 2, 3] = false := by
  obtain ⟨h1, h2, h3⟩ := claim_C1 [112, 119] [1, 2, 3] (fun i => i % 256)
    (fun i => (100 + i) % 256) (by decide) (by decide)
    (fun i => Nat.mod_lt _ (by decide)) (fun i => Nat.mod_lt _ (by decide)) (by decide)
  exact ⟨h1, h2 0 (by decide) 5 (by decide) (by decide), h3 10 (by decide)⟩

/-- C2 counterexample: two signatures produced by the same processor with
different per-call randomness carry the same 16-byte salt field, equal to the
salt fixed at construction, even though their nonce fields differ: the salt
is not drawn fresh per call. -/
theorem claim_C2_cex :
    (encryptPayload (mkProcessor [112, 119] (fun i => i % 256)) [1, 2, 3]
        (fun _ => 7)).take 16 =
      (encryptPayload (mkProcessor [112, 119] (fun i => i % 256)) [1, 2, 3]
        (fun _ => 9)).take 16 ∧
    (encryptPayload (mkProcessor [112, 119] (fun i => i % 256)) [1, 2, 3]
        (fun _ => 7)).take 16 = (mkProcessor [112, 119] (fun i => i % 256)).salt ∧
    ((encryptPayload (mkProcessor [112, 119] (fun i => i % 256)) [1, 2, 3]
        (fun _ => 7)).drop 16).take 12 ≠
      ((encryptPayload (mkProcessor [112, 119] (fun i => i % 256)) [1, 2, 3]
        (fun _ => 9)).drop 16).take 12 := by
  decide

/-- C2 (amended): every `encrypt_signature` call embeds a fresh 12-byte
nonce drawn from the per-call randomness, but the 16-byte salt field of
every signature equals the salt generated once at construction; the salt is
fixed at construction, not drawn per call. -/
theorem claim_C2 (pass fb : List Nat) (ent nent : Nat → Nat) :
    (encryptPayload (mkProcessor pass ent) fb nent).take 16 =
      (mkProcessor pass ent).salt ∧
    (mkProcessor pass ent).salt = (List.range 16).map ent ∧
    ((encryptPayload (mkProcessor pass ent) fb nent).drop 16).take 12 =
      (List.range 12).map nent := by
  obtain ⟨h1, h2, _⟩ := payload_split (mkProcessor pass ent).salt (nonceOf nent)
    (ciphertextOf (mkProcessor pass ent) fb nent) (length_salt pass ent)
    (length_nonceOf nent)
  exact ⟨h1, rfl, h2⟩

/-- C3: `verify_signature` is a total boolean predicate; it returns `true`
exactly when the signature decodes, the payload decrypts under the
re-derived key, and the decrypted bytes equal the expected feature bytes —
every decode or decrypt failure yields `false` (all exceptions are caught). -/
theorem claim_C3 (P : Processor) (sig : List Char) (fb : List Nat) :
    verifySignature P sig fb = true ↔
      ∃ payload, b64Decode sig = some payload ∧
        gcmDecrypt (hkdfDerive P.passphrase (payload.take 16))
          ((payload.drop 16).take 12) (payload.drop 28) = some fb := by
  unfold verifySignature verifyPayload
  cases hdec : b64Decode sig with
  | none => simp
  | some payload =>
      cases hgcm : gcmDecrypt (hkdfDerive P.passphrase (payload.take 16))
          ((payload.drop 16).take 12) (payload.drop 28) with
      | none => simp [hgcm]
      | some d => simp [hgcm, beq_iff_eq]

/-! ### Sliding-window buffering (`SerialCollector.stream`, lines 858-895)

The buffer-and-process stage of the stream loop is a pure fold over the
acquired samples: `buffer` is a `deque(maxlen=window_size)`, and a window is
emitted exactly when the buffer is full and at least `step_size` samples
arrived since the last emission, after which `samples_since_last` resets. -/

/-- One `deque(maxlen=W)` append: the oldest element is dropped once the
buffer holds `W` samples. -/
def pushRing (W : Nat) (buf : List α) (x : α) : List α :=
  (buf ++ [x]).drop ((buf ++ [x]).length - W)

/-- The window-emission state of the stream loop: the ring buffer, the
`samples_since_last` counter and the windows emitted so far. -/
structure WinState (α : Type) where
  buf : List α
  since : Nat
  wins : List (List α)

/-- The buffer-and-process stage of one loop iteration of
`SerialCollector.stream` for one acquired sample (lines 858-895): append to
the ring buffer, bump `samples_since_last`, and when
`len(buffer) == window_size and samples_since_last >= step_size` emit the
window and reset the counter to 0. -/
def winStep (W S : Nat) (st : WinState α) (x : α) : WinState α :=
  let buf := pushRing W st.buf x
  let since := st.since + 1
  if buf.length = W ∧ S ≤ since then
    { buf := buf, since := 0, wins := st.wins ++ [buf] }
  else
    { buf := buf, since := since, wins := st.wins }

/-- Feeding a whole sample stream through the loop, starting from an empty
buffer and a zero counter. -/
def processStream (W S : Nat) (xs : List α) : WinState α :=
  xs.foldl (winStep W S) ⟨[], 0, []⟩

/-- The number of windows the loop emits for `n` samples. -/
def emCount (W S n : Nat) : Nat :=
  if n < W then 0 else (n - W) / S + 1

theorem succ_full_step (S M : Nat) (hS : 0 < S) (h : M % S = S - 1) :
    (M + 1) % S = 0 ∧ (M + 1) / S = M / S + 1 := by
  have hM := Nat.div_add_mod M S
  have h1 : M + 1 = S * (M / S + 1) := by
    rw [Nat.mul_succ]
    omega
  exact ⟨by rw [h1]; exact Nat.mul_mod_right S _,
         by rw [h1]; exact Nat.mul_div_cancel_left _ hS⟩

theorem succ_partial_step (S M : Nat) (hS : 0 < S) (h : M % S ≠ S - 1) :
    (M + 1) % S = M % S + 1 ∧ (M + 1) / S = M / S := by
  have hM := Nat.div_add_mod M S
  have hlt : M % S < S := Nat.mod_lt _ hS
  have h2 : M % S + 1 < S := by omega
  have h1 : M + 1 = S * (M / S) + (M % S + 1) := by omega
  refine ⟨?_, ?_⟩
  · rw [h1, Nat.mul_add_mod, Nat.mod_eq_of_lt h2]
  · rw [h1, Nat.mul_add_div hS, Nat.div_eq_of_lt h2, Nat.add_zero]

theorem mul_le_of_lt_div_succ (S M i : Nat) (hi : i < M / S + 1) :
    i * S ≤ M := by
  have hM := Nat.div_add_mod M S
  have h1 : i ≤ M / S := by omega
  calc i * S ≤ M / S * S := Nat.mul_le_mul_right S h1
    _ = S * (M / S) := Nat.mul_comm _ _
    _ ≤ M := by omega

theorem succ_div_mul (S M : Nat) (hS : 0 < S) (h : M % S = S - 1) :
    (M / S + 1) * S = M + 1 := by
  have hM := Nat.div_add_mod M S
  rw [Nat.add_mul, Nat.one_mul, Nat.mul_comm (M / S) S]
  omega

/-- A window fully inside `ys` is unchanged when a sample is appended. -/
theorem window_stable (ys : List α) (x : α) (a W : Nat) (h : a + W ≤ ys.length) :
    ((ys ++ [x]).drop a).take W = (ys.drop a).take W := by
  rw [List.drop_append_of_le_length (by omega),
    List.take_append_of_le_length (by rw [List.length_drop]; omega)]

/-- Invariant of the stream loop: after `n` samples the ring buffer holds
the last `min n W` samples, `samples_since_last` counts samples modulo the
step once the buffer has filled, and the emitted windows are exactly the
slices `[i*S, i*S + W)` for `i` below the emission count. -/
theorem processStream_spec (W S : Nat) (hS : 0 < S) (hSW : S ≤ W) (xs : List α) :
    (processStream W S xs).buf = xs.drop (xs.length - W) ∧
    (processStream W S xs).since =
      (if xs.length < W then xs.length else (xs.length - W) % S) ∧
    (processStream W S xs).wins =
      (List.range (emCount W S xs.length)).map (fun i => (xs.drop (i * S)).take W) := by
  induction xs using List.reverseRecOn with
  | nil =>
      have hW : 0 < W := by omega
      refine ⟨by simp [processStream], by simp [processStream, hW],
        by simp [processStream, emCount, hW]⟩
  | append_singleton ys x ih =>
      obtain ⟨ihb, ihs, ihw⟩ := ih
      have hstep : processStream W S (ys ++ [x]) = winStep W S (processStream W S ys) x := by
        simp [processStream, List.foldl_append]
      have hlen1 : (ys ++ [x]).length = ys.length + 1 := by simp
      have hA : pushRing W (processStream W S ys).buf x =
          (ys ++ [x]).drop (ys.length + 1 - W) := by
        rw [ihb]
        have h1 : ys.drop (ys.length - W) ++ [x] = (ys ++ [x]).drop (ys.length - W) :=
          (List.drop_append_of_le_length (by omega)).symm
        unfold pushRing
        rw [h1, List.drop_drop]
        congr 1
        simp only [List.length_drop, List.length_append, List.length_singleton]
        omega
      have hAlen : (pushRing W (processStream W S ys).buf x).length =
          ys.length + 1 - (ys.length + 1 - W) := by
        rw [hA, List.length_drop, hlen1]
      rw [hstep]
      by_cases hfull : W ≤ ys.length + 1
      · have hlenW : (pushRing W (processStream W S ys).buf x).length = W := by
          rw [hAlen]; omega
        by_cases hprev : ys.length < W
        · -- the buffer becomes full exactly now: first emission
          have hW : W = ys.length + 1 := by omega
          have hsI : (processStream W S ys).since = ys.length := by
            rw [ihs, if_pos hprev]
          have hcond : (pushRing W (processStream W S ys).buf x).length = W ∧
              S ≤ (processStream W S ys).since + 1 := ⟨hlenW, by rw [hsI]; omega⟩
          simp only [winStep, if_pos hcond]
          refine ⟨by rw [hA, hlen1], ?_, ?_⟩
          · rw [hlen1, if_neg (by omega), show ys.length + 1 - W = 0 from by omega]
            simp
          · rw [hlen1, ihw]
            have hc0 : emCount W S ys.length = 0 := by simp [emCount, hprev]
            have hc1 : emCount W S (ys.length + 1) = 1 := by
              simp [emCount, if_neg (by omega : ¬ ys.length + 1 < W),
                show ys.length + 1 - W = 0 from by omega]
            rw [hc0, hc1, hA]
            simp only [List.range_zero, List.map_nil, List.nil_append,
              show List.range 1 = [0] from rfl, List.map_cons, Nat.zero_mul,
              List.drop_zero]
            rw [show ys.length + 1 - W = 0 from by omega, List.drop_zero,
              List.take_of_length_le (by rw [hlen1]; omega)]
        · -- the buffer was already full
          push_neg at hprev
          have hsI : (processStream W S ys).since = (ys.length - W) % S := by
            rw [ihs, if_neg (by omega)]
          have hmodlt : (ys.length - W) % S < S := Nat.mod_lt _ hS
          have hsub1 : ys.length + 1 - W = (ys.length - W) + 1 := by omega
          by_cases hready : S ≤ (ys.length - W) % S + 1
          · -- emission step
            have hmod : (ys.length - W) % S = S - 1 := by omega
            obtain ⟨hm0, hd1⟩ := succ_full_step S (ys.length - W) hS hmod
            have hcond : (pushRing W (processStream W S ys).buf x).length = W ∧
                S ≤ (processStream W S ys).since + 1 := ⟨hlenW, by rw [hsI]; omega⟩
            simp only [winStep, if_pos hcond]
            have hcnew : emCount W S (ys.length + 1) = emCount W S ys.length + 1 := by
              simp only [emCount, if_neg (by omega : ¬ ys.length + 1 < W),
                if_neg (by omega : ¬ ys.length < W), hsub1, hd1]
            refine ⟨by rw [hA, hlen1], ?_, ?_⟩
            · rw [hlen1, if_neg (by omega), hsub1, hm0]
            · rw [hlen1, hcnew, List.range_succ, List.map_append]
              have hold : (List.range (emCount W S ys.length)).map
                    (fun i => ((ys ++ [x]).drop (i * S)).take W) =
                  (List.range (emCount W S ys.length)).map
                    (fun i => (ys.drop (i * S)).take W) := by
                apply List.map_congr_left
                intro i hi
                apply window_stable
                have hiS : i * S ≤ ys.length - W := by
                  apply mul_le_of_lt_div_succ S _ i
                  simpa [emCount, if_neg (by omega : ¬ ys.length < W)] using
                    List.mem_range.1 hi
                omega
              rw [hold, ← ihw]
              congr 1
              have hidx : emCount W S ys.length * S = ys.length + 1 - W := by
                simp only [emCount, if_neg (by omega : ¬ ys.length < W)]
                rw [succ_div_mul S _ hS hmod]
                omega
              simp only [List.map_cons, List.map_nil]
              rw [hidx, hA, List.take_of_length_le]
              rw [List.length_drop, hlen1]
              omega
          · -- no emission: counter advances
            push_neg at hready
            have hmodne : (ys.length - W) % S ≠ S - 1 := by omega
            obtain ⟨hm1, hd0⟩ := succ_partial_step S (ys.length - W) hS hmodne
            have hcond : ¬((pushRing W (processStream W S ys).buf x).length = W ∧
                S ≤ (processStream W S ys).since + 1) := by
              rintro ⟨-, h2⟩
              rw [hsI] at h2
              omega
            simp only [winStep, if_neg hcond]
            have hcsame : emCount W S (ys.length + 1) = emCount W S ys.length := by
              simp only [emCount, if_neg (by omega : ¬ ys.length + 1 < W),
                if_neg (by omega : ¬ ys.length < W), hsub1, hd0]
            refine ⟨by rw [hA, hlen1], ?_, ?_⟩
            · rw [hlen1, hsI, if_neg (by omega), hsub1, hm1]
            · rw [hlen1, hcsame, ihw]
              apply List.map_congr_left
              intro i hi
              symm
              apply window_stable
              have hiS : i * S ≤ ys.length - W := by
                apply mul_le_of_lt_div_succ S _ i
                simpa [emCount, if_neg (by omega : ¬ ys.length < W)] using
                  List.mem_range.1 hi
              omega
      · -- the buffer is still filling
        push_neg at hfull
        have hsI : (processStream W S ys).since = ys.length := by
          rw [ihs, if_pos (by omega)]
        have hcond : ¬((pushRing W (processStream W S ys).buf x).length = W ∧
            S ≤ (processStream W S ys).since + 1) := by
          rintro ⟨h1, -⟩
          rw [hAlen] at h1
          omega
        simp only [winStep, if_neg hcond]
        refine ⟨by rw [hA, hlen1], ?_, ?_⟩
        · rw [hlen1, hsI, if_pos (by omega)]
        · rw [hlen1, ihw]
          simp [emCount, if_pos (by omega : ys.length < W),
            if_pos (by omega : ys.length + 1 < W)]

/-- C4: for window size `W` and step `S` with `0 < S ≤ W`, a window is
emitted exactly when the buffer holds `W` samples and at least `S` samples
arrived since the last emission, after which the counter resets to 0; the
emitted windows are exactly one per `S` new samples once `W` samples have
accumulated (the slices `[i*S, i*S + W)`), and consecutive windows overlap
by exactly `W - S` samples. -/
theorem claim_C4 (W S : Nat) (hS : 0 < S) (hSW : S ≤ W) (xs : List α) :
    (processStream W S xs).wins =
      (List.range (emCount W S xs.length)).map (fun i => (xs.drop (i * S)).take W) ∧
    (∀ st : WinState α, ∀ x : α,
      (winStep W S st x).wins ≠ st.wins ↔
        ((pushRing W st.buf x).length = W ∧ S ≤ st.since + 1)) ∧
    (∀ st : WinState α, ∀ x : α,
      (winStep W S st x).wins ≠ st.wins → (winStep W S st x).since = 0) ∧
    (∀ i : Nat, ((xs.drop (i * S)).take W).drop S =
      ((xs.drop ((i + 1) * S)).take W).take (W - S)) := by
  refine ⟨(processStream_spec W S hS hSW xs).2.2, ?_, ?_, ?_⟩
  · intro st x
    by_cases hcond : ((pushRing W st.buf x).length = W ∧ S ≤ st.since + 1)
    · simp only [winStep, if_pos hcond]
      refine iff_of_true ?_ hcond
      intro h
      have := congrArg List.length h
      simp at this
    · simp only [winStep, if_neg hcond]
      exact iff_of_false (by simp) hcond
  · intro st x h
    by_cases hcond : ((pushRing W st.buf x).length = W ∧ S ≤ st.since + 1)
    · simp only [winStep, if_pos hcond]
    · simp only [winStep, if_neg hcond] at h
      exact absurd rfl h
  · intro i
    rw [List.drop_take, List.drop_drop, List.take_take, Nat.min_eq_left (by omega),
      show i * S + S = (i + 1) * S from by rw [Nat.succ_mul]]

/-- Witness for C4 with `W = 3`, `S = 2` on six samples: windows are emitted
at samples 3 and 5, and consecutive windows overlap in `W - S = 1` sample. -/
theorem claim_C4_witness :
    (processStream 3 2 ([0, 1, 2, 3, 4, 5] : List Nat)).wins = [[0, 1, 2], [2, 3, 4]] ∧
    ((([0, 1, 2, 3, 4, 5] : List Nat).drop (0 * 2)).take 3).drop 2 =
      ((([0, 1, 2, 3, 4, 5] : List Nat).drop (1 * 2)).take 3).take 1 := by
  obtain ⟨h1, -, -, h4⟩ := claim_C4 3 2 (by decide) (by decide)
    ([0, 1, 2, 3, 4, 5] : List Nat)
  exact ⟨h1.trans (by decide), h4 0⟩

/-! ### Construction validation

`BrainwaveProcessor._validate_inputs` (lines 160-174) and
`SerialCollector._validate_inputs` (lines 581-595), modelled as boolean
checks mirroring the raise-chain: `false` means a `ValueError` is raised
before any acquisition starts.  Frequencies are modelled as rationals and
the passphrase as its character list; `not passphrase or not
passphrase.strip()` fails exactly when every character is whitespace. -/

/-- The whitespace predicate of Python `str.strip` (ASCII range). -/
def pyIsSpace (c : Char) : Bool :=
  c = ' ' || c = '\t' || c = '\n' || c = '\r' || c = '\x0b' || c = '\x0c'

/-- `BrainwaveProcessor._validate_inputs`: positive sampling rate,
non-blank passphrase, non-empty band set, and every band `(low, high)` with
`low < high` and `0 ≤ low`, `high ≤ fs/2`. -/
def validateProcessorInputs (fs : ℚ) (pass : List Char) (bands : List (ℚ × ℚ)) : Bool :=
  if fs ≤ 0 then false
  else if pass.all pyIsSpace then false
  else if bands.isEmpty then false
  else bands.all fun b => decide (b.1 < b.2) && decide (0 ≤ b.1) && decide (b.2 ≤ fs / 2)

/-- `SerialCollector._validate_inputs`: positive baud rate, positive window
and step sizes, and step not exceeding the window. -/
def validateCollectorInputs (baud window step : Int) : Bool :=
  if baud ≤ 0 then false
  else if window ≤ 0 then false
  else if step ≤ 0 then false
  else if window < step then false
  else true

/-- C5: construction-time validation succeeds exactly for valid
configurations: positive sampling rate, a passphrase with a non-whitespace
character, a non-empty band set whose bands satisfy `low < high` within
`[0, fs/2]`; and positive baud/window/step with `step ≤ window` for the
collector.  In particular `fs = -1`, an empty passphrase, an empty band set
and `step > window` all fail. -/
theorem claim_C5 (fs : ℚ) (pass : List Char) (bands : List (ℚ × ℚ))
    (baud window step : Int) :
    (validateProcessorInputs fs pass bands = true ↔
      (0 < fs ∧ (∃ c ∈ pass, pyIsSpace c = false) ∧ bands ≠ [] ∧
        ∀ b ∈ bands, b.1 < b.2 ∧ 0 ≤ b.1 ∧ b.2 ≤ fs / 2)) ∧
    (validateCollectorInputs baud window step = true ↔
      (0 < baud ∧ 0 < window ∧ 0 < step ∧ step ≤ window)) ∧
    validateProcessorInputs (-1) pass bands = false ∧
    validateProcessorInputs fs [] bands = false ∧
    validateProcessorInputs 256 [' ', 'p'] [(8, 8)] = false ∧
    validateCollectorInputs 115200 4 5 = false := by
  refine ⟨?_, ?_, ?_, ?_, by decide, by decide⟩
  · unfold validateProcessorInputs
    by_cases h1 : fs ≤ 0
    · rw [if_pos h1]
      simp [not_lt.2 h1]
    · rw [if_neg h1]
      have h1' : 0 < fs := not_le.1 h1
      by_cases h2 : pass.all pyIsSpace
      · rw [if_pos h2]
        have hnex : ¬ ∃ c ∈ pass, pyIsSpace c = false := by
          rintro ⟨c, hc, hcf⟩
          have := List.all_eq_true.1 h2 c hc
          simp [this] at hcf
        simp [hnex]
      · rw [if_neg h2]
        have hex : ∃ c ∈ pass, pyIsSpace c = false := by
          by_contra hn
          push_neg at hn
          exact h2 (List.all_eq_true.2 fun c hc => by
            have := hn c hc
            simpa [Bool.not_eq_false] using this)
        by_cases h3 : bands.isEmpty
        · rw [if_pos h3]
          simp [List.isEmpty_iff.1 h3]
        · rw [if_neg h3]
          have hne : bands ≠ [] := by simpa [List.isEmpty_iff] using h3
          simp [List.all_eq_true, h1', hex, hne, Bool.and_eq_true,
            decide_eq_true_eq, and_assoc]
  · unfold validateCollectorInputs
    split_ifs with h1 h2 h3 h4
    · simp; omega
    · simp; omega
    · simp; omega
    · simp; omega
    · simp; omega
  · rw [validateProcessorInputs, if_pos (by norm_num)]
  · rw [validateProcessorInputs]
    split_ifs with h1 h2 h3
    · rfl
    · rfl
    · rfl
    · exact absurd rfl h2

/-! ### Feature extraction (`BrainwaveProcessor.compute_features`, lines 217-242)

Signal values are modelled as rationals.  The scipy filters
(`signal.filtfilt` along axis 0, i.e. applied independently to every
channel) and `signal.welch` are external collaborators and enter as function
parameters `nf`, `bf` (notch and bandpass stages) and `welch` (returning the
frequency bins and the power spectral density); the band-integration logic,
the channel reduction and the empty-window shortcut are translated from the
source. -/

/-- `np.mean` of one row (mean across channels). -/
def meanList (r : List ℚ) : ℚ := r.sum / r.length

/-- `BrainwaveProcessor.apply_filters` (lines 204-215) on a window given by
its columns (channels): `filtfilt` with `axis=0` filters every channel
independently, notch first, then bandpass. -/
def applyFilters (nf bf : List ℚ → List ℚ) (cols : List (List ℚ)) : List (List ℚ) :=
  (cols.map nf).map bf

/-- The mono signal handed to `signal.welch` by `compute_features`: the
window is filtered (per channel, `axis=0`) first, and the filtered array is
then reduced across channels by `np.mean(filtered, axis=1)` (lines 225-228). -/
def monoSignal (nf bf : List ℚ → List ℚ) (w : List (List ℚ)) : List ℚ :=
  ((applyFilters nf bf w.transpose).transpose).map meanList

/-- `np.trapz` over selected (frequency, psd) pairs: trapezoidal
integration. -/
def trapzPairs : List (ℚ × ℚ) → ℚ
  | p :: q :: rest => (q.1 - p.1) * (p.2 + q.2) / 2 + trapzPairs (q :: rest)
  | _ => 0

/-- One band of the loop body of `compute_features` (lines 234-240): select
the bins with `low ≤ f ≤ high`; if any are selected integrate the PSD over
them, otherwise the band power is exactly `0.0`. -/
def bandPower (freqs psd : List ℚ) (low high : ℚ) : ℚ :=
  let sel := (freqs.zip psd).filter fun p => decide (low ≤ p.1) && decide (p.1 ≤ high)
  if sel.isEmpty then 0 else trapzPairs sel

/-- `window_data.size`: the total number of elements of the window. -/
def windowSize (w : List (List ℚ)) : Nat := (w.map List.length).sum

/-- `BrainwaveProcessor.compute_features` (lines 217-242): an empty window
yields the all-zero vector; otherwise filter, reduce to mono, run Welch and
integrate each configured band in declaration order. -/
def computeFeatures (nf bf : List ℚ → List ℚ) (welch : List ℚ → List ℚ × List ℚ)
    (bands : List (ℚ × ℚ)) (w : List (List ℚ)) : List ℚ :=
  if windowSize w = 0 then bands.map fun _ => 0
  else bands.map fun b =>
    bandPower (welch (monoSignal nf bf w)).1 (welch (monoSignal nf bf w)).2 b.1 b.2

/-- C6: the feature vector always has one entry per configured band, in
declaration order; a band containing no frequency bin contributes exactly
`0`; and an empty input window yields the all-zero vector of that length. -/
theorem claim_C6 (nf bf : List ℚ → List ℚ) (welch : List ℚ → List ℚ × List ℚ)
    (bands : List (ℚ × ℚ)) (w : List (List ℚ)) :
    (computeFeatures nf bf welch bands w).length = bands.length ∧
    (∀ i, ∀ hi : i < bands.length,
      (∀ f ∈ (welch (monoSignal nf bf w)).1, ¬(bands[i].1 ≤ f ∧ f ≤ bands[i].2)) →
      (computeFeatures nf bf welch bands w).getD i 0 = 0) ∧
    (windowSize w = 0 →
      computeFeatures nf bf welch bands w = List.replicate bands.length 0) := by
  refine ⟨?_, ?_, ?_⟩
  · unfold computeFeatures
    split <;> simp
  · intro i hi hnone
    unfold computeFeatures
    by_cases hz : windowSize w = 0
    · rw [if_pos hz, List.map_const']
      by_cases h : i < bands.length
      · rw [List.getD_eq_getElem _ _ (by simpa using h), List.getElem_replicate]
      · rw [List.getD_eq_default _ _ (by simpa using h)]
    · rw [if_neg hz, List.getD_eq_getElem _ _ (by simpa using hi), List.getElem_map]
      have hsel : ((welch (monoSignal nf bf w)).1.zip (welch (monoSignal nf bf w)).2).filter
          (fun p => decide (bands[i].1 ≤ p.1) && decide (p.1 ≤ bands[i].2)) = [] := by
        rw [List.filter_eq_nil_iff]
        rintro ⟨a, c⟩ hp
        have hf : a ∈ (welch (monoSignal nf bf w)).1 := (List.of_mem_zip hp).1
        have := hnone a hf
        simp only [Bool.and_eq_true, decide_eq_true_eq]
        tauto
      simp [bandPower, hsel]
  · intro h
    unfold computeFeatures
    rw [if_pos h, List.map_const']

/-- Modelled from the spec (§4.1): the spec asserts the multi-channel window
is reduced to a single channel (mean across channels) BEFORE the notch and
bandpass filters are applied, so the filters would operate on the already
reduced mono signal. -/
def monoSpecOrder (nf bf : List ℚ → List ℚ) (w : List (List ℚ)) : List ℚ :=
  bf (nf (w.map meanList))

/-- C7 counterexample: on the two-channel window `[[0, 2]]`, with the filter
stages instantiated by a squaring stage and the identity, the source's
conditioning (filter per channel, then mean) yields `[2]` while the
spec-asserted order (mean, then filter) yields `[1]`: the code does not
reduce the window before filtering. -/
theorem claim_C7_cex :
    monoSignal (fun xs => xs.map fun x => x * x) id [[0, 2]] ≠
      monoSpecOrder (fun xs => xs.map fun x => x * x) id [[0, 2]] := by
  show [meanList [0 * 0, 2 * 2]] ≠ [meanList [0, 2] * meanList [0, 2]]
  have h1 : meanList [0 * 0, 2 * 2] = 2 := by norm_num [meanList]
  have h2 : meanList [0, 2] = 1 := by norm_num [meanList]
  rw [h1, h2]
  norm_num

/-- C7 (amended): for every window, the conditioning stage applies the notch
and bandpass filters per channel (along axis 0) first, and only then reduces
the filtered window to a single channel by the mean across channels: the
mono signal equals the row-wise mean of the per-channel composite-filtered
columns. -/
theorem claim_C7 (nf bf : List ℚ → List ℚ) (w : List (List ℚ)) :
    monoSignal nf bf w =
      ((w.transpose.map fun c => bf (nf c)).transpose).map meanList := by
  unfold monoSignal applyFilters
  rw [List.map_map]
  rfl

theorem pairwise_zip_left {xs : List ℚ} (ys : List ℚ)
    (h : List.Pairwise (· ≤ ·) xs) :
    List.Pairwise (fun a b : ℚ × ℚ => a.1 ≤ b.1) (xs.zip ys) := by
  induction xs generalizing ys with
  | nil => simp
  | cons x xs ih =>
      cases ys with
      | nil => simp
      | cons y ys =>
          rw [List.zip_cons_cons]
          rw [List.pairwise_cons] at h
          refine List.Pairwise.cons ?_ (ih ys h.2)
          rintro ⟨a, b⟩ hp
          exact h.1 a (List.of_mem_zip hp).1

/-- Trapezoidal integration of non-negative values over weakly increasing
abscissae is non-negative. -/
theorem trapzPairs_nonneg (l : List (ℚ × ℚ))
    (hx : List.Pairwise (fun a b : ℚ × ℚ => a.1 ≤ b.1) l)
    (hy : ∀ p ∈ l, 0 ≤ p.2) : 0 ≤ trapzPairs l := by
  induction l with
  | nil => simp [trapzPairs]
  | cons p rest ih =>
      cases rest with
      | nil => simp [trapzPairs]
      | cons q rest2 =>
          show 0 ≤ (q.1 - p.1) * (p.2 + q.2) / 2 + trapzPairs (q :: rest2)
          rw [List.pairwise_cons] at hx
          have hpq : p.1 ≤ q.1 := hx.1 q (by simp)
          have hp2 : 0 ≤ p.2 := hy p (by simp)
          have hq2 : 0 ≤ q.2 := hy q (by simp)
          have h0 : 0 ≤ (q.1 - p.1) * (p.2 + q.2) / 2 := by
            apply div_nonneg _ (by norm_num)
            exact mul_nonneg (by linarith) (by linarith)
          have ih2 := ih hx.2 fun r hr => hy r (by simp [hr])
          linarith

/-- C9: when the Welch estimate returns weakly increasing frequency bins and
a non-negative PSD, every entry of the feature vector is non-negative: each
band power is a trapezoidal integral of non-negative values over increasing
bins, or exactly `0`. -/
theorem claim_C9 (nf bf : List ℚ → List ℚ) (welch : List ℚ → List ℚ × List ℚ)
    (bands : List (ℚ × ℚ)) (w : List (List ℚ))
    (hfreq : List.Pairwise (· ≤ ·) (welch (monoSignal nf bf w)).1)
    (hpsd : ∀ p ∈ (welch (monoSignal nf bf w)).2, 0 ≤ p) :
    ∀ v ∈ computeFeatures nf bf welch bands w, 0 ≤ v := by
  intro v hv
  unfold computeFeatures at hv
  by_cases hz : windowSize w = 0
  · rw [if_pos hz] at hv
    obtain ⟨b, -, rfl⟩ := List.mem_map.1 hv
    exact le_refl 0
  · rw [if_neg hz] at hv
    obtain ⟨b, -, rfl⟩ := List.mem_map.1 hv
    simp only [bandPower]
    by_cases hemp : (((welch (monoSignal nf bf w)).1.zip (welch (monoSignal nf bf w)).2).filter
        fun p => decide (b.1 ≤ p.1) && decide (p.1 ≤ b.2)).isEmpty = true
    · rw [if_pos hemp]
    · rw [if_neg hemp]
      apply trapzPairs_nonneg
      · exact (pairwise_zip_left _ hfreq).filter _
      · rintro ⟨a, c⟩ hr
        exact hpsd c (List.of_mem_zip (List.mem_of_mem_filter hr)).2

/-- Witness for C6 at a configuration whose single band `(audioLow, audioHigh)
= (100, 200)` contains none of the Welch bins `{1, 2}`. -/
theorem claim_C6_witness :
    (computeFeatures id id (fun _ => ([1, 2], [5, 5])) [(100, 200)] [[1], [2]]).length = 1 ∧
    (computeFeatures id id (fun _ => ([1, 2], [5, 5])) [(100, 200)] [[1], [2]]).getD 0 0 = 0 ∧
    computeFeatures id id (fun _ => ([1, 2], [5, 5])) [] [] = List.replicate 0 0 := by
  obtain ⟨h1, h2, -⟩ := claim_C6 id id (fun _ => ([1, 2], [5, 5])) [(100, 200)] [[1], [2]]
  obtain ⟨-, -, h3⟩ := claim_C6 id id (fun _ => ([1, 2], [5, 5])) [] []
  exact ⟨h1, h2 0 (by decide) (by decide), h3 (by decide)⟩

theorem getD_zero_mem {l : List ℚ} (h : l ≠ []) (d : ℚ) : l.getD 0 d ∈ l := by
  cases l with
  | nil => exact absurd rfl h
  | cons a t => simp [List.getD_cons_zero]

/-- Witness for C9 on a concrete window and Welch estimate. -/
theorem claim_C9_witness :
    0 ≤ (computeFeatures id id (fun _ => ([1, 2], [5, 7])) [(0, 3)] [[1], [2]]).getD 0 37 := by
  have h := claim_C9 id id (fun _ => ([1, 2], [5, 7])) [(0, 3)] [[1], [2]]
    (by norm_num [List.pairwise_cons]) (by norm_num)
  have hne : computeFeatures id id (fun _ => ([1, 2], [5, 7])) [(0, 3)] [[1], [2]] ≠ [] := by
    unfold computeFeatures
    rw [if_neg (by decide)]
    simp
  exact h _ (getD_zero_mem hne 37)

/-! ### Hardware line parsing (`SerialCollector.parse_line`, lines 714-737)

Strings are modelled as character lists.  `pyFloat` models Python `float()`
on decimal and exponent literals (the numeric lines the device emits);
its exact domain does not affect the prefix-handling claims below. -/

/-- Python `str.strip()` with no arguments: remove leading and trailing
whitespace. -/
def pyStrip (s : List Char) : List Char :=
  ((s.dropWhile fun c => pyIsSpace c).reverse.dropWhile fun c => pyIsSpace c).reverse

/-- Python `str.upper()` on ASCII text. -/
def pyUpper (s : List Char) : List Char := s.map Char.toUpper

/-- The control markers of `line.upper().startswith(("CMD:", "STATUS:",
"ERROR:", "INFO:"))`. -/
def controlMarkers : List (List Char) :=
  ["CMD:".toList, "STATUS:".toList, "ERROR:".toList, "INFO:".toList]

/-- A line whose uppercased text starts with a control marker. -/
def isControlLine (s : List Char) : Bool :=
  controlMarkers.any fun p => p.isPrefixOf (pyUpper s)

/-- The `for prefix in ("DATA:", "DATA|")` loop: strip the first matching
data marker (matched case-insensitively, removed from the original line). -/
def stripDataMarker (s : List Char) : List Char :=
  if ("DATA:".toList).isPrefixOf (pyUpper s) then s.drop 5
  else if ("DATA|".toList).isPrefixOf (pyUpper s) then s.drop 5
  else s

/-- The value of a string of decimal digits. -/
def digitsVal (ds : List Char) : Nat :=
  ds.foldl (fun a c => a * 10 + (c.toNat - 48)) 0

/-- The exponent part after `e`/`E`: optional sign, then digits. -/
def parseExpPart (s : List Char) : Option Int :=
  match s with
  | '+' :: r => if r ≠ [] ∧ r.all Char.isDigit then some (digitsVal r) else none
  | '-' :: r => if r ≠ [] ∧ r.all Char.isDigit then some (-(digitsVal r : Int)) else none
  | r => if r ≠ [] ∧ r.all Char.isDigit then some (digitsVal r) else none

/-- The unsigned part of a Python float literal: digits, an optional
fraction, an optional exponent. -/
def pyFloatCore (s : List Char) : Option ℚ :=
  let ip := s.takeWhile Char.isDigit
  let r1 := s.dropWhile Char.isDigit
  match r1 with
  | [] => if ip = [] then none else some (digitsVal ip)
  | 'e' :: r4 =>
      if ip = [] then none
      else (parseExpPart r4).map fun e => (digitsVal ip : ℚ) * (10 : ℚ) ^ e
  | 'E' :: r4 =>
      if ip = [] then none
      else (parseExpPart r4).map fun e => (digitsVal ip : ℚ) * (10 : ℚ) ^ e
  | '.' :: r2 =>
      let fp := r2.takeWhile Char.isDigit
      let r3 := r2.dropWhile Char.isDigit
      if ip = [] ∧ fp = [] then none
      else
        let base : ℚ := (digitsVal ip : ℚ) + (digitsVal fp : ℚ) / ((10 : ℚ) ^ fp.length)
        match r3 with
        | [] => some base
        | 'e' :: r4 => (parseExpPart r4).map fun e => base * (10 : ℚ) ^ e
        | 'E' :: r4 => (parseExpPart r4).map fun e => base * (10 : ℚ) ^ e
        | _ => none
  | _ => none

/-- Python `float(str)` on an already stripped field, with an optional
sign. -/
def pyFloat (s : List Char) : Option ℚ :=
  match s with
  | '+' :: r => pyFloatCore r
  | '-' :: r => (pyFloatCore r).map Neg.neg
  | r => pyFloatCore r

/-- `[float(x) for x in parts[1:]]`: all fields must parse. -/
def parseFloats : List (List Char) → Option (List ℚ)
  | [] => some []
  | x :: xs =>
      match pyFloat x, parseFloats xs with
      | some v, some vs => some (v :: vs)
      | _, _ => none

/-- The comma-split-and-parse stage of `parse_line` (lines 729-737): strip
each comma-separated field, drop empty fields, require at least two fields,
parse the first as the timestamp and the rest as sample values; any parse
failure drops the line. -/
def parseFields (s : List Char) : Option (ℚ × List ℚ) :=
  let parts := ((s.splitOn ',').map pyStrip).filter fun p => !p.isEmpty
  if parts.length < 2 then none
  else
    match parts with
    | p0 :: rest =>
        match pyFloat p0, parseFloats rest with
        | some t, some vs => some (t, vs)
        | _, _ => none
    | [] => none

/-- `SerialCollector.parse_line` (lines 714-737). -/
def parseLine (s : List Char) : Option (ℚ × List ℚ) :=
  if pyStrip s = [] then none
  else if isControlLine (pyStrip s) then none
  else parseFields (stripDataMarker (pyStrip s))

/-- C10: control markers are recognised case-insensitively — every line
whose uppercased stripped text starts with `CMD:`, `STATUS:`, `ERROR:` or
`INFO:` parses to `none` — and a leading `DATA:` or `DATA|` in any letter
case is removed from the stripped line before the comma-split and numeric
parse. -/
theorem claim_C10 (s : List Char) :
    (isControlLine (pyStrip s) = true → parseLine s = none) ∧
    (∀ pre rest : List Char, pyStrip s = pre ++ rest → pre.length = 5 →
      (pyUpper pre = "DATA:".toList ∨ pyUpper pre = "DATA|".toList) →
      parseLine s = parseFields rest) := by
  constructor
  · intro h
    unfold parseLine
    by_cases h1 : pyStrip s = []
    · rw [if_pos h1]
    · rw [if_neg h1, if_pos h]
  · intro pre rest hsplit hlen hdata
    have hne : pyStrip s ≠ [] := by
      rw [hsplit]
      intro h0
      have h1 := congrArg List.length h0
      rw [List.length_append] at h1
      simp only [List.length_nil] at h1
      omega
    have hupper : pyUpper (pyStrip s) = pyUpper pre ++ pyUpper rest := by
      rw [hsplit]
      simp [pyUpper]
    have hctl : isControlLine (pyStrip s) = false := by
      unfold isControlLine
      rw [hupper]
      rcases hdata with hd | hd <;> rw [hd] <;> rfl
    have hdstrip : stripDataMarker (pyStrip s) = rest := by
      unfold stripDataMarker
      rcases hdata with hd | hd
      · have hpref : ("DATA:".toList).isPrefixOf (pyUpper (pyStrip s)) = true := by
          rw [hupper, hd]
          exact List.isPrefixOf_iff_prefix.2 (List.prefix_append _ _)
        rw [if_pos hpref, hsplit, List.drop_append_of_le_length (by omega),
          List.drop_eq_nil_of_le (by omega), List.nil_append]
      · have hnpref : ¬ ("DATA:".toList).isPrefixOf (pyUpper (pyStrip s)) = true := by
          rw [hupper, hd]
          intro hc
          obtain ⟨t, ht⟩ := List.isPrefixOf_iff_prefix.1 hc
          have h5 := congrArg (List.take 5) ht
          rw [List.take_left' (show ("DATA:".toList).length = 5 from rfl),
            List.take_left' (show ("DATA|".toList).length = 5 from rfl)] at h5
          exact absurd h5 (by decide)
        have hpref2 : ("DATA|".toList).isPrefixOf (pyUpper (pyStrip s)) = true := by
          rw [hupper, hd]
          exact List.isPrefixOf_iff_prefix.2 (List.prefix_append _ _)
        rw [if_neg hnpref, if_pos hpref2, hsplit,
          List.drop_append_of_le_length (by omega),
          List.drop_eq_nil_of_le (by omega), List.nil_append]
    unfold parseLine
    rw [if_neg hne, hctl, if_neg (by simp), hdstrip]

/-- Witness for C10: a lowercase control line is dropped, and a lowercase
`data|` marker is stripped before field parsing. -/
theorem claim_C10_witness :
    parseLine "  info: boot".toList = none ∧
    parseLine "data|12,3.5".toList = parseFields "12,3.5".toList := by
  obtain ⟨h1, -⟩ := claim_C10 "  info: boot".toList
  obtain ⟨-, h2⟩ := claim_C10 "data|12,3.5".toList
  exact ⟨h1 (by decide),
    h2 "data|".toList "12,3.5".toList (by decide) (by decide) (by decide)⟩

/-! ### Acquisition and fallback (`SerialCollector.stream`, lines 796-895)

The `while True` loop is modelled as a step function over the collector
state.  Wall-clock pacing, the serial channel and the synthetic generator
are external, so each iteration reads an environment record carrying the
oracle values the loop consumes (whether the next synthetic sample is due,
the read outcome, whether `connect()` reaches hardware again).  The
reconnect cap `self._max_reconnect_attempts` is the constant 10
(line 577). -/

/-- The mutable state of `SerialCollector.stream` relevant to acquisition,
fallback and emission. -/
structure StreamState where
  useMock : Bool
  hardwareAvailable : Bool
  serOpen : Bool
  reconnectAttempts : Nat
  sampleCount : Nat
  buffer : List (List ℚ)
  samplesSinceLast : Nat
  signatures : Nat

/-- The oracle values one loop iteration reads from the outside world. -/
structure StreamEnv where
  mockDue : Bool
  mockSample : ℚ
  readFails : Bool
  readLine : Option (List Char)
  connectOpensHw : Bool

/-- The observable action one loop iteration performs. -/
inductive StreamAction
  | mockWait
  | mockSample
  | hwSwitchMock
  | hwReconnect
  | hwRead

/-- `self.connect()` (lines 620-677) as reached from the stream loop when
not in mock mode: on success the channel is open and hardware available; on
failure the collector falls back to mock mode. -/
def connectEffect (env : StreamEnv) (st : StreamState) : StreamState :=
  if env.connectOpensHw then { st with serOpen := true, hardwareAvailable := true }
  else { st with useMock := true, hardwareAvailable := false }

/-- The buffer-and-process stage shared by both modes (lines 858-895): the
ring-buffer append, the counter, and the emission with counter reset. -/
def processSample (W S : Nat) (st : StreamState) (samples : List ℚ) : StreamState :=
  let buffer := pushRing W st.buffer samples
  let since := st.samplesSinceLast + 1
  if buffer.length = W ∧ S ≤ since then
    { st with buffer := buffer, samplesSinceLast := 0, signatures := st.signatures + 1 }
  else
    { st with buffer := buffer, samplesSinceLast := since }

/-- One iteration of the `while True` loop of `SerialCollector.stream`:
mock pacing and sample generation when `use_mock`; otherwise the
closed-channel reconnect path with the hard cap of 10 attempts (switching
permanently to mock when reached), the read-failure reconnect path, and the
read-parse-process path which resets the attempt counter on a successful
read. -/
def streamStep (W S : Nat) (st : StreamState) (env : StreamEnv) :
    StreamState × StreamAction :=
  if st.useMock then
    if env.mockDue then
      (processSample W S { st with sampleCount := st.sampleCount + 1 } [env.mockSample],
        StreamAction.mockSample)
    else (st, StreamAction.mockWait)
  else
    if st.serOpen then
      if env.readFails then (connectEffect env st, StreamAction.hwRead)
      else
        match env.readLine with
        | none => ({ st with reconnectAttempts := 0 }, StreamAction.hwRead)
        | some line =>
            match parseLine line with
            | none => ({ st with reconnectAttempts := 0 }, StreamAction.hwRead)
            | some (_, samples) =>
                (processSample W S
                  { st with reconnectAttempts := 0, sampleCount := st.sampleCount + 1 }
                  samples, StreamAction.hwRead)
    else
      if 10 ≤ st.reconnectAttempts + 1 then
        ({ st with reconnectAttempts := st.reconnectAttempts + 1, useMock := true,
                   hardwareAvailable := false },
          StreamAction.hwSwitchMock)
      else
        (connectEffect env { st with reconnectAttempts := st.reconnectAttempts + 1 },
          StreamAction.hwReconnect)

/-- Running the loop over a list of iteration environments, collecting the
actions. -/
def streamRun (W S : Nat) (st : StreamState) :
    List StreamEnv → StreamState × List StreamAction
  | [] => (st, [])
  | env :: rest =>
      let r := streamStep W S st env
      let rr := streamRun W S r.1 rest
      (rr.1, r.2 :: rr.2)

/-- Actions that touch only the synthetic source, never the hardware. -/
def isMockAction : StreamAction → Bool
  | StreamAction.mockWait => true
  | StreamAction.mockSample => true
  | _ => false

theorem mock_absorbing (W S : Nat) (st : StreamState) (env : StreamEnv)
    (h : st.useMock = true) :
    (streamStep W S st env).1.useMock = true ∧
    isMockAction (streamStep W S st env).2 = true := by
  unfold streamStep
  rw [if_pos h]
  by_cases hdue : env.mockDue = true
  · rw [if_pos hdue]
    refine ⟨?_, rfl⟩
    simp only [processSample]
    split <;> exact h
  · rw [if_neg hdue]
    exact ⟨h, rfl⟩

/-- C8: once the reconnect counter reaches the cap of 10 the collector
switches to synthetic mode; mock mode is absorbing — over any further run of
the loop the state stays in mock mode and every action is a synthetic-source
action, never a hardware access — and in mock mode the pipeline keeps
buffering samples and emitting signatures instead of halting. -/
theorem claim_C8 (W S : Nat) (st : StreamState) (env : StreamEnv)
    (envs : List StreamEnv) :
    (st.useMock = false → st.serOpen = false → 10 ≤ st.reconnectAttempts + 1 →
      (streamStep W S st env).1.useMock = true ∧
      (streamStep W S st env).2 = StreamAction.hwSwitchMock) ∧
    (st.useMock = true →
      (streamRun W S st envs).1.useMock = true ∧
      (streamRun W S st envs).2.all isMockAction = true) ∧
    (st.useMock = true → env.mockDue = true →
      (streamStep W S st env).1.buffer = pushRing W st.buffer [env.mockSample] ∧
      ((pushRing W st.buffer [env.mockSample]).length = W ∧ S ≤ st.samplesSinceLast + 1 →
        (streamStep W S st env).1.signatures = st.signatures + 1)) := by
  refine ⟨?_, ?_, ?_⟩
  · intro h1 h2 h3
    unfold streamStep
    rw [if_neg (by simp [h1]), if_neg (by simp [h2]), if_pos h3]
    exact ⟨rfl, rfl⟩
  · intro h
    induction envs generalizing st with
    | nil => exact ⟨h, rfl⟩
    | cons env0 rest ih =>
        obtain ⟨hm, ha⟩ := mock_absorbing W S st env0 h
        obtain ⟨ih1, ih2⟩ := ih _ hm
        refine ⟨ih1, ?_⟩
        simp only [streamRun, List.all_cons, ha, ih2, Bool.and_self]
  · intro h hdue
    unfold streamStep
    rw [if_pos h, if_pos hdue]
    simp only [processSample]
    constructor
    · split <;> rfl
    · intro hready
      rw [if_pos (by simpa using hready)]

/-- Witness for C8: a collector at 9 failed attempts with a closed channel
switches to mock on the next iteration; from mock mode a two-iteration run
stays in mock mode with only synthetic actions; and a due synthetic sample
fills the buffer and emits. -/
theorem claim_C8_witness :
    (streamStep 1 1 ⟨false, true, false, 9, 0, [], 0, 0⟩
        ⟨true, 1, false, none, true⟩).1.useMock = true ∧
    (streamStep 1 1 ⟨false, true, false, 9, 0, [], 0, 0⟩
        ⟨true, 1, false, none, true⟩).2 = StreamAction.hwSwitchMock ∧
    (streamRun 1 1 ⟨true, false, false, 10, 0, [], 0, 0⟩
        [⟨true, 1, false, none, true⟩, ⟨false, 2, true, none, false⟩]).1.useMock = true ∧
    (streamRun 1 1 ⟨true, false, false, 10, 0, [], 0, 0⟩
        [⟨true, 1, false, none, true⟩, ⟨false, 2, true, none, false⟩]).2.all
      isMockAction = true ∧
    (streamStep 1 1 ⟨true, false, false, 10, 0, [], 0, 0⟩
        ⟨true, 1, false, none, true⟩).1.signatures = 0 + 1 := by
  obtain ⟨h1, -, -⟩ := claim_C8 1 1 ⟨false, true, false, 9, 0, [], 0, 0⟩
    ⟨true, 1, false, none, true⟩ []
  obtain ⟨-, h2, h3⟩ := claim_C8 1 1 ⟨true, false, false, 10, 0, [], 0, 0⟩
    ⟨true, 1, false, none, true⟩
    [⟨true, 1, false, none, true⟩, ⟨false, 2, true, none, false⟩]
  obtain ⟨ha, hb⟩ := h1 rfl rfl (by decide)
  obtain ⟨hc, hd⟩ := h2 rfl
  obtain ⟨-, hf⟩ := h3 rfl rfl
  exact ⟨ha, hb, hc, hd, hf (by constructor <;> rfl)⟩

end CortexKey
